import Mathlib

/-!
Verification of the TranscriptWizard pipeline (src/Transcriber.py).

The Python source is shallowly embedded: pure computations become Lean
functions, the file system and the CSV run log become explicit state that
is threaded through `process_audio_file`, and Python exceptions become
`Except` values supplied by an `Env` record (one failure point per external
call the source makes).  Durations are milliseconds as `Nat`, matching
`len(audio)` / `pydub` slicing semantics.
-/

namespace TranscriptWizard

/-! ## AudioSegmenter (Transcriber.py line 113)

`segments = [audio[i:i+interval] for i in range(0, len(audio), interval)]`

`pyRange start stop step` models Python's `range(start, stop, step)` for a
positive step; the fuel argument of `pyRangeAux` only bounds the recursion
(`stop` steps always suffice since each iteration advances `start` by at
least one).  A pydub slice `audio[i:i+interval]` is represented by its
`(start offset, duration)` pair; slicing clamps at the end of the track,
so the duration is `min interval (dur - i)`. -/

def pyRangeAux (stop step : Nat) : Nat → Nat → List Nat
  | 0, _ => []
  | fuel + 1, start => if start < stop then start :: pyRangeAux stop step fuel (start + step) else []

def pyRange (start stop step : Nat) : List Nat :=
  if step == 0 then [] else pyRangeAux stop step stop start

def segments (dur interval : Nat) : List (Nat × Nat) :=
  (pyRange 0 dur interval).map (fun i => (i, min interval (dur - i)))

/-- `isPartitionB lo hi segs` holds when the `(start, duration)` pairs in
`segs`, in order, tile the half-open interval `[lo, hi)` exactly: each
segment starts where the previous one ended, has positive duration, and
the final segment ends at `hi`.  This is the "no gaps, no overlaps"
partition property. -/
def isPartitionB : Nat → Nat → List (Nat × Nat) → Bool
  | lo, hi, [] => lo == hi
  | lo, hi, (s, d) :: rest => (s == lo) && (decide (0 < d)) && isPartitionB (lo + d) hi rest

theorem pyRangeAux_of_stopped (stop step start : Nat) (h : ¬ start < stop) :
    ∀ fuel, pyRangeAux stop step fuel start = [] := by
  intro fuel
  cases fuel with
  | zero => rfl
  | succ f => simp [pyRangeAux, h]

theorem mod_of_dvd_below (C s D : Nat) (_hC : 0 < C) (hdvd : C ∣ s) (h1 : s < D)
    (h2 : D ≤ s + C) : D % C = if D - s = C then 0 else D - s := by
  obtain ⟨k, rfl⟩ := hdvd
  obtain ⟨r, rfl⟩ : ∃ r, D = C * k + r := ⟨D - C * k, by omega⟩
  rw [Nat.mul_add_mod, Nat.add_sub_cancel_left]
  have hrC : r ≤ C := by omega
  by_cases hr : r = C
  · simp [hr, Nat.mod_self]
  · rw [if_neg hr]
    exact Nat.mod_eq_of_lt (by omega)

/-- Structural facts about the segment list produced from offset `s` with
`fuel` at least the remaining length: it partitions `[s, D)`, every
segment but the last has duration `C`, and the last segment's duration is
`D % C` when that is nonzero and `C` otherwise (given `C ∣ s`). -/
theorem segsFromAux_spec (D C : Nat) (hC : 0 < C) :
    ∀ fuel s, D - s ≤ fuel → s < D → s % C = 0 →
      (isPartitionB s D ((pyRangeAux D C fuel s).map (fun i => (i, min C (D - i)))) = true) ∧
      (∀ p ∈ ((pyRangeAux D C fuel s).map (fun i => (i, min C (D - i)))).dropLast, p.2 = C) ∧
      ((((pyRangeAux D C fuel s).map (fun i => (i, min C (D - i)))).getLast?).map Prod.snd =
        some (if D % C = 0 then C else D % C)) := by
  intro fuel
  induction fuel with
  | zero => intro s h1 h2 h3; omega
  | succ f ih =>
    intro s h1 h2 h3
    have hdvd : C ∣ s := Nat.dvd_of_mod_eq_zero h3
    simp only [pyRangeAux, if_pos h2, List.map_cons]
    by_cases hnext : s + C < D
    · have hrec := ih (s + C) (by omega) hnext (by rw [Nat.add_mod_right]; exact h3)
      have hmin : min C (D - s) = C := by omega
      rw [hmin]
      rcases hm : (pyRangeAux D C f (s + C)).map (fun i => (i, min C (D - i))) with _ | ⟨q, qs⟩
      · rw [hm] at hrec
        obtain ⟨hp1, _, _⟩ := hrec
        simp only [isPartitionB, beq_iff_eq] at hp1
        omega
      · rw [hm] at hrec
        obtain ⟨hpart, hdrop, hlast⟩ := hrec
        refine ⟨?_, ?_, ?_⟩
        · simp only [isPartitionB, Bool.and_eq_true, beq_iff_eq, decide_eq_true_eq] at hpart
          simp [isPartitionB, hC, hpart]
        · intro p hp
          rw [List.dropLast_cons₂] at hp
          cases hp with
          | head => rfl
          | tail _ hp => exact hdrop p hp
        · rw [List.getLast?_cons_cons]
          exact hlast
    · have hstop : pyRangeAux D C f (s + C) = [] :=
        pyRangeAux_of_stopped D C (s + C) hnext f
      have hmin : min C (D - s) = D - s := by omega
      have hmod := mod_of_dvd_below C s D hC hdvd h2 (by omega)
      rw [hstop, hmin]
      refine ⟨?_, ?_, ?_⟩
      · simp [isPartitionB]
        omega
      · intro p hp
        simp at hp
      · simp only [List.map_nil]
        by_cases hfull : D - s = C
        · rw [if_pos hfull] at hmod
          rw [hmod]
          simp [hfull]
        · rw [if_neg hfull] at hmod
          have hne : ¬ (D % C = 0) := by omega
          rw [if_neg hne, hmod]
          simp

/-- Claim C1: for every audio duration `D > 0` and chunk size `C > 0`, the
segmenter's list of `(start, duration)` slices is a finite ordered
partition of `[0, D)` with no gaps and no overlaps, every segment except
possibly the last has duration `C`, and when `D % C` is nonzero the last
segment's duration equals `D % C`. -/
theorem c1_segmenter_partition (D C : Nat) (hD : 0 < D) (hC : 0 < C) :
    isPartitionB 0 D (segments D C) = true ∧
    (∀ p ∈ (segments D C).dropLast, p.2 = C) ∧
    (D % C ≠ 0 → ((segments D C).getLast?).map Prod.snd = some (D % C)) := by
  have hpr : pyRange 0 D C = pyRangeAux D C D 0 := by
    unfold pyRange
    rw [if_neg]
    simp only [beq_iff_eq]
    omega
  have h := segsFromAux_spec D C hC D 0 (by omega) hD (Nat.zero_mod C)
  rw [segments, hpr]
  refine ⟨h.1, h.2.1, ?_⟩
  intro hmod
  have hlast := h.2.2
  rw [if_neg hmod] at hlast
  exact hlast

/-- Witness for C1, at a 7 ms track cut into 3 ms chunks: segments are
`(0,3), (3,3), (6,1)`. -/
theorem c1_segmenter_partition_witness :
    isPartitionB 0 7 (segments 7 3) = true ∧
    (∀ p ∈ (segments 7 3).dropLast, p.2 = 3) ∧
    (7 % 3 ≠ 0 → ((segments 7 3).getLast?).map Prod.snd = some (7 % 3)) :=
  c1_segmenter_partition 7 3 (by decide) (by decide)

/-! ## TranscriptionEngine text aggregation (Transcriber.py lines 116, 126)

`all_text = ""` and per segment `all_text += result["text"] + "\n\n"`. -/

def paragraphSep : String := "\n\n"

def aggregate (texts : List String) : String :=
  texts.foldl (fun acc t => acc ++ t ++ paragraphSep) ""

/-- Modelled from the spec's words for the refinement comparison in C6:
"the per-segment transcription results, taken in segment order, joined by
the defined paragraph separator" — i.e. the separator is placed between
consecutive results. -/
def joinedBy (sep : String) : List String → String
  | [] => ""
  | t :: rest =>
    match rest with
    | [] => t
    | _ :: _ => t ++ sep ++ joinedBy sep rest

theorem aggregate_foldl_acc (acc : String) (ts : List String) :
    ts.foldl (fun a t => a ++ t ++ paragraphSep) acc =
      acc ++ ts.foldl (fun a t => a ++ t ++ paragraphSep) "" := by
  induction ts generalizing acc with
  | nil => simp
  | cons t rest ih =>
    simp only [List.foldl_cons]
    rw [ih (acc ++ t ++ paragraphSep), ih ("" ++ t ++ paragraphSep)]
    simp [String.append_assoc]

/-- Claim C6, counterexample: with a single segment whose transcription is
`"a"`, the aggregated text is `"a\n\n"`, which is not the separator-join
of the per-segment results (that would be `"a"`): the code appends the
separator after every segment, including the last. -/
theorem c6_counterexample :
    aggregate ["a"] = "a" ++ paragraphSep ∧ joinedBy paragraphSep ["a"] = "a" ∧
      aggregate ["a"] ≠ joinedBy paragraphSep ["a"] := by
  refine ⟨by decide, by decide, by decide⟩

/-- Claim C6 as amended: for every segment count ≥ 1, the aggregated
transcript text equals the per-segment results joined in segment order by
the paragraph separator, followed by one trailing separator. -/
theorem c6_aggregate_join_trailing (ts : List String) (h : ts ≠ []) :
    aggregate ts = joinedBy paragraphSep ts ++ paragraphSep := by
  induction ts with
  | nil => exact absurd rfl h
  | cons t rest ih =>
    rw [aggregate, List.foldl_cons, aggregate_foldl_acc]
    cases rest with
    | nil => simp [joinedBy, aggregate]
    | cons r rs =>
      have hr : aggregate (r :: rs) = joinedBy paragraphSep (r :: rs) ++ paragraphSep :=
        ih (by simp)
      rw [show (r :: rs).foldl (fun a t => a ++ t ++ paragraphSep) "" = aggregate (r :: rs) from rfl,
        hr]
      simp [joinedBy, String.append_assoc]

/-- Witness for C6's amended theorem at two concrete segments. -/
theorem c6_aggregate_join_trailing_witness :
    aggregate ["a", "b"] = joinedBy paragraphSep ["a", "b"] ++ paragraphSep :=
  c6_aggregate_join_trailing ["a", "b"] (by decide)

/-! ## Summarizer (Transcriber.py lines 142-176)

The source tries `gpt-4o`, then on any exception `gpt-3.5-turbo`, then on
any exception substitutes a fixed degraded message with the sentinel
backend identifier `"失敗"`.  `summarize` is the source's nested
try/except chain; `summarizeChain` is the same fallback iteration over an
arbitrary ordered backend list, of which the source is the two-element
instance (proved in C2's theorem). -/

def degradedMessage : String := "要約に失敗しました。文字起こしのみご利用ください。"

def failedSentinel : String := "失敗"

def isErr : Except String String → Bool
  | .error _ => true
  | .ok _ => false

def summarize (gpt4o gpt35 : Except String String) : String × String :=
  match gpt4o with
  | .ok text => (text, "gpt-4o")
  | .error _ =>
    match gpt35 with
    | .ok text => (text, "gpt-3.5-turbo")
    | .error _ => (degradedMessage, failedSentinel)

def summarizeChain : List (String × Except String String) → String × String
  | [] => (degradedMessage, failedSentinel)
  | (backendId, res) :: rest =>
    match res with
    | .ok text => (text, backendId)
    | .error _ => summarizeChain rest

/-- Claim C2: the source's nested try/except is the ordered two-backend
chain `gpt-4o, gpt-3.5-turbo`; for every chain, if the backends before `b`
all fail and `b` succeeds with text `t`, the outcome is `t` with `b`'s
identifier; and if every backend fails, the outcome is the fixed degraded
message with the failure-sentinel identifier (returned, not raised). -/
theorem c2_summarizer_fallback :
    (∀ g4 g35, summarize g4 g35 = summarizeChain [("gpt-4o", g4), ("gpt-3.5-turbo", g35)]) ∧
    (∀ (pre : List (String × Except String String)) (b : String × Except String String)
        (post : List (String × Except String String)) (t : String),
        (∀ p ∈ pre, isErr p.2 = true) → b.2 = Except.ok t →
        summarizeChain (pre ++ b :: post) = (t, b.1)) ∧
    (∀ chain : List (String × Except String String),
        (∀ p ∈ chain, isErr p.2 = true) →
        summarizeChain chain = (degradedMessage, failedSentinel)) := by
  refine ⟨?_, ?_, ?_⟩
  · intro g4 g35
    cases g4 <;> cases g35 <;> rfl
  · intro pre b post t hpre hb
    induction pre with
    | nil =>
      obtain ⟨bid, bres⟩ := b
      simp only at hb
      simp [summarizeChain, hb]
    | cons p rest ih =>
      obtain ⟨pid, pres⟩ := p
      cases pres with
      | ok s => exact absurd (hpre (pid, .ok s) (by simp)) (by simp [isErr])
      | error e =>
        rw [List.cons_append, summarizeChain]
        exact ih (fun q hq => hpre q (List.mem_cons_of_mem _ hq))
  · intro chain hchain
    induction chain with
    | nil => rfl
    | cons p rest ih =>
      obtain ⟨pid, pres⟩ := p
      cases pres with
      | ok s => exact absurd (hchain (pid, .ok s) (by simp)) (by simp [isErr])
      | error e =>
        rw [summarizeChain]
        exact ih (fun q hq => hchain q (List.mem_cons_of_mem _ hq))

/-- Witness for C2: first backend fails and the second succeeds, so the
outcome records the second backend; with both failing, the degraded
message and sentinel come back. -/
theorem c2_summarizer_fallback_witness :
    summarizeChain [("gpt-4o", Except.error "x"), ("gpt-3.5-turbo", Except.ok "sum")] =
      ("sum", "gpt-3.5-turbo") ∧
    summarizeChain [("gpt-4o", Except.error "x"), ("gpt-3.5-turbo", Except.error "y")] =
      (degradedMessage, failedSentinel) := by
  constructor
  · exact c2_summarizer_fallback.2.1 [("gpt-4o", Except.error "x")]
      ("gpt-3.5-turbo", Except.ok "sum") [] "sum" (by decide) rfl
  · exact c2_summarizer_fallback.2.2
      [("gpt-4o", Except.error "x"), ("gpt-3.5-turbo", Except.error "y")] (by decide)

/-! ## Notifier (Transcriber.py lines 356-372)

`send_to_slack` posts the payload and returns `response.status_code == 200`;
any exception is caught and reported as `False`.  The transport outcome is
modelled as `Except String Nat`: either a status code or a raised
transport error. -/

def send_to_slack (transport : Except String Nat) : Bool :=
  match transport with
  | .ok statusCode => statusCode == 200
  | .error _ => false

/-- Claim C9, counterexample: status 204 is in the 200 range, yet the
notifier reports failure — the source compares the status to exactly 200,
not to the 2xx range. -/
theorem c9_counterexample :
    (200 ≤ 204 ∧ 204 < 300) ∧ send_to_slack (Except.ok 204) = false := by
  decide

/-- Claim C9 as amended: the notifier reports success exactly when the
HTTP response status equals 200; every other status (including other 2xx
codes) and every transport-level exception is reported as failure through
the Boolean return value (the function is total — nothing is raised past
it). -/
theorem c9_notifier_success_iff_status_200 (transport : Except String Nat) :
    send_to_slack transport = true ↔ transport = Except.ok 200 := by
  cases transport with
  | ok c => simp [send_to_slack]
  | error e => simp [send_to_slack]

/-! ## Per-segment transcription loop (Transcriber.py lines 117-129)

For each segment `i` the loop exports `chunk_i.mp3` (creating the
transient file), calls `model.transcribe`, appends the text plus the
separator, and only then runs `os.remove(segment_file)`.  There is no
try/finally around the transcribe call: if it raises, the `os.remove`
line is never reached and the exception propagates to the per-file
handler.  `runSegAux` threads the set of existing transient chunk files
(as a list of segment indices; exporting an index that already exists
overwrites it). -/

def runSegAux (transcribe : Nat → Except String String) :
    Nat → Nat → List Nat → String → List Nat × Except String String
  | 0, _, files, acc => (files, .ok acc)
  | remaining + 1, idx, files, acc =>
    let files1 := if files.contains idx then files else files ++ [idx]
    match transcribe idx with
    | .ok text => runSegAux transcribe remaining (idx + 1) (files1.erase idx) (acc ++ text ++ paragraphSep)
    | .error e => (files1, .error e)

def runSegments (transcribe : Nat → Except String String) (n : Nat) :
    List Nat × Except String String :=
  runSegAux transcribe n 0 [] ""

theorem runSegAux_all_ok (transcribe : Nat → Except String String) :
    ∀ (n idx : Nat) (acc : String), (∀ i, i < n → (transcribe (idx + i)).isOk = true) →
      ∃ out, runSegAux transcribe n idx [] acc = ([], Except.ok out) := by
  intro n
  induction n with
  | zero => intro idx acc _; exact ⟨acc, rfl⟩
  | succ m ih =>
    intro idx acc hok
    have h0 := hok 0 (by omega)
    simp only [Nat.add_zero] at h0
    rcases htr : transcribe idx with e | text
    · rw [htr] at h0; simp [Except.isOk, Except.toBool] at h0
    · have step : runSegAux transcribe (m + 1) idx [] acc =
          runSegAux transcribe m (idx + 1) (([] ++ [idx] : List Nat).erase idx)
            (acc ++ text ++ paragraphSep) := by
        simp [runSegAux, htr]
      rw [step]
      simp only [List.nil_append, List.erase_cons_head]
      exact ih (idx + 1) (acc ++ text ++ paragraphSep)
        (fun i hi => by
          have := hok (i + 1) (by omega)
          rwa [show idx + (i + 1) = idx + 1 + i by omega] at this)

theorem runSegAux_first_failure (transcribe : Nat → Except String String) :
    ∀ (j n idx : Nat) (acc : String) (e : String),
      (∀ i, i < j → (transcribe (idx + i)).isOk = true) →
      transcribe (idx + j) = Except.error e → j < n →
      runSegAux transcribe n idx [] acc = ([idx + j], Except.error e) := by
  intro j
  induction j with
  | zero =>
    intro n idx acc e _ herr hn
    obtain ⟨m, rfl⟩ : ∃ m, n = m + 1 := ⟨n - 1, by omega⟩
    simp only [Nat.add_zero] at herr
    simp [runSegAux, herr]
  | succ k ih =>
    intro n idx acc e hok herr hn
    obtain ⟨m, rfl⟩ : ∃ m, n = m + 1 := ⟨n - 1, by omega⟩
    have h0 := hok 0 (by omega)
    simp only [Nat.add_zero] at h0
    rcases htr : transcribe idx with e' | text
    · rw [htr] at h0; simp [Except.isOk, Except.toBool] at h0
    · have step : runSegAux transcribe (m + 1) idx [] acc =
          runSegAux transcribe m (idx + 1) (([] ++ [idx] : List Nat).erase idx)
            (acc ++ text ++ paragraphSep) := by
        simp [runSegAux, htr]
      rw [step]
      simp only [List.nil_append, List.erase_cons_head]
      have := ih m (idx + 1) (acc ++ text ++ paragraphSep) e
        (fun i hi => by
          have := hok (i + 1) (by omega)
          rwa [show idx + (i + 1) = idx + 1 + i by omega] at this)
        (by rwa [show idx + 1 + k = idx + (k + 1) by omega]) (by omega)
      rw [this, show idx + 1 + k = idx + (k + 1) by omega]

/-- Claim C4, counterexample: running three segments where segment 1's
model invocation raises leaves `chunk_1` in existence after the loop
aborts — the transient file of the failing segment is not deleted, so it
does outlive the processing of its segment. -/
theorem c4_counterexample :
    (runSegments (fun i => if i == 0 then Except.ok "t" else Except.error "boom") 3).1 = [1] ∧
      ([1] : List Nat) ≠ [] := by
  refine ⟨by decide, by decide⟩

/-- Claim C4 as amended: the transient per-segment file is deleted on the
success path — after a run in which every model invocation succeeds, no
transient chunk file remains — but when the invocation for segment `j`
fails (the earlier ones succeeding), `chunk_j` is not deleted: exactly it
survives the aborted loop. -/
theorem c4_transient_file_cleanup (transcribe : Nat → Except String String) (n : Nat) :
    ((∀ i, i < n → (transcribe i).isOk = true) →
      ∃ out, runSegments transcribe n = ([], Except.ok out)) ∧
    (∀ j e, j < n → (∀ i, i < j → (transcribe i).isOk = true) →
      transcribe j = Except.error e →
      runSegments transcribe n = ([j], Except.error e)) := by
  constructor
  · intro hok
    exact runSegAux_all_ok transcribe n 0 "" (fun i hi => by simpa using hok i hi)
  · intro j e hj hok herr
    have := runSegAux_first_failure transcribe j n 0 "" e
      (fun i hi => by simpa using hok i hi) (by simpa using herr) hj
    simpa [runSegments] using this

/-- Witness for C4's amended theorem: all-success leaves no chunk files;
failure at segment 1 leaves exactly `chunk_1`. -/
theorem c4_transient_file_cleanup_witness :
    (∃ out, runSegments (fun _ => Except.ok "t") 2 = ([], Except.ok out)) ∧
    runSegments (fun i => if i == 0 then Except.ok "t" else Except.error "boom") 3 =
      ([1], Except.error "boom") := by
  constructor
  · exact (c4_transient_file_cleanup (fun _ => Except.ok "t") 2).1 (by decide)
  · exact (c4_transient_file_cleanup
      (fun i => if i == 0 then Except.ok "t" else Except.error "boom") 3).2 1 "boom"
      (by decide) (by decide) rfl

/-! ## MinutesFormatter (Transcriber.py lines 190-206)

The summary text is split on `"\n"`; an empty-after-strip line becomes an
empty paragraph; otherwise, when the line contains both `【` and `】` and
`line.find("【") == 0`, the prefix up to and including the first `】` is
added as a bold run and the remainder (when nonempty) as a plain run;
every other line becomes one plain run.

`pyIsSpace` enumerates the code points for which Python's `str.isspace`
is true, so `line.strip() == ""` is `line.data.all pyIsSpace`; `pyIn c l`
is Python's `c in line`; `List.findIdx` is `line.find` (the calls are
guarded so the not-found value is never used); slicing `line[:k]` /
`line[k:]` is `take` / `drop` on the character list. -/

def pyWhitespace : List Char :=
  ['\t', '\n', '\x0b', '\x0c', '\r', '\x1c', '\x1d', '\x1e', '\x1f', ' ',
   '\x85', '\xa0', ' ', ' ', ' ', ' ', ' ', ' ',
   ' ', ' ', ' ', ' ', ' ', ' ', ' ',
   ' ', ' ', ' ', '　']

def pyIsSpace (c : Char) : Bool := pyWhitespace.contains c

def pyIn (c : Char) (l : List Char) : Bool := l.any (fun x => x == c)

inductive Run where
  | bold (text : String)
  | plain (text : String)
deriving DecidableEq

inductive Block where
  | blank
  | para (runs : List Run)
deriving DecidableEq

def formatLine (line : String) : Block :=
  if line.data.all pyIsSpace then Block.blank
  else if pyIn '【' line.data && pyIn '】' line.data then
    let startIdx := line.data.findIdx (fun c => c == '【')
    let endIdx := line.data.findIdx (fun c => c == '】') + 1
    if startIdx == 0 then
      Block.para (Run.bold (String.mk (line.data.take endIdx)) ::
        (if endIdx < line.data.length then [Run.plain (String.mk (line.data.drop endIdx))] else []))
    else Block.para [Run.plain line]
  else Block.para [Run.plain line]

def buildMinutes (summaryText : String) : List Block :=
  (summaryText.splitOn "\n").map formatLine

theorem any_of_getD (p : Char → Bool) :
    ∀ (l : List Char) (i : Nat), i < l.length → p (l.getD i ' ') = true → l.any p = true := by
  intro l
  induction l with
  | nil => intro i hi; simp at hi
  | cons a as ih =>
    intro i hi hp
    cases i with
    | zero => simp only [List.getD_cons_zero] at hp; simp [hp]
    | succ k =>
      simp only [List.getD_cons_succ] at hp
      have := ih k (by simpa using hi) hp
      simp [this]

theorem findIdx_of_first (p : Char → Bool) :
    ∀ (l : List Char) (i : Nat), i < l.length → (∀ c ∈ l.take i, p c = false) →
      p (l.getD i ' ') = true → l.findIdx p = i := by
  intro l
  induction l with
  | nil => intro i hi; simp at hi
  | cons a as ih =>
    intro i hi hno hp
    cases i with
    | zero =>
      simp only [List.getD_cons_zero] at hp
      simp [List.findIdx_cons, hp]
    | succ k =>
      have ha : p a = false := hno a (by simp [List.take_succ_cons])
      simp only [List.getD_cons_succ] at hp
      have := ih k (by simpa using hi) (fun c hc => hno c (by simp [List.take_succ_cons, hc]))
        hp
      simp [List.findIdx_cons, ha, this]

theorem take_succ_getLast (d : Char) :
    ∀ (l : List Char) (i : Nat), i < l.length →
      (l.take (i + 1)).getLast? = some (l.getD i d) := by
  intro l
  induction l with
  | nil => intro i hi; simp at hi
  | cons a as ih =>
    intro i hi
    cases i with
    | zero => simp
    | succ k =>
      have hk : k < as.length := by simpa using hi
      have hih := ih k hk
      rw [List.take_succ_cons, List.getD_cons_succ]
      cases hmt : as.take (k + 1) with
      | nil =>
        rw [hmt] at hih
        simp at hih
      | cons b bs =>
        rw [List.getLast?_cons_cons]
        rw [hmt] at hih
        exact hih

/-- Claim C8: line formatting of the minutes document.  (1) A line whose
characters are all whitespace (including the empty line) becomes a blank
paragraph block.  (2) A line starting with `【` whose first `】` sits at
index `i` becomes an emphasized (bold) run holding the bracketed span
`line[:i+1]` followed by a plain run holding the remainder `line[i+1:]`,
the plain run being omitted when the remainder is empty; the span starts
with `【`, ends with the matching (first) `】`, and span ++ remainder
reassembles the line.  (3) Any other line — no closing bracket, or the
bracket pair not starting at the line's start — becomes a single plain
run equal to the full line. -/
theorem c8_minutes_formatting :
    (∀ line : String, line.data.all pyIsSpace = true → formatLine line = Block.blank) ∧
    (∀ (line : String) (i : Nat), line.data.head? = some '【' →
      i < line.data.length → (∀ c ∈ line.data.take i, (c == '】') = false) →
      line.data.getD i ' ' = '】' →
      formatLine line = Block.para (Run.bold (String.mk (line.data.take (i + 1))) ::
        (if i + 1 < line.data.length then [Run.plain (String.mk (line.data.drop (i + 1)))]
         else [])) ∧
      (line.data.take (i + 1)).head? = some '【' ∧
      (line.data.take (i + 1)).getLast? = some '】' ∧
      String.mk (line.data.take (i + 1)) ++ String.mk (line.data.drop (i + 1)) = line) ∧
    (∀ line : String, line.data.all pyIsSpace = false →
      (line.data.head? = some '【' → pyIn '】' line.data = false) →
      formatLine line = Block.para [Run.plain line]) := by
  refine ⟨?_, ?_, ?_⟩
  · intro line h
    simp [formatLine, h]
  · intro line i hhead hi hno hat
    obtain ⟨l⟩ := line
    cases l with
    | nil => simp at hhead
    | cons c rest =>
      simp only [List.head?_cons, Option.some.injEq] at hhead
      subst hhead
      have hsp : (('【' :: rest).all pyIsSpace) = false := by
        simp [pyIsSpace, pyWhitespace]
      have hin1 : pyIn '【' ('【' :: rest) = true := by simp [pyIn]
      have hin2 : pyIn '】' ('【' :: rest) = true :=
        any_of_getD (fun x => x == '】') ('【' :: rest) i hi (by simpa using hat)
      have hfind1 : ('【' :: rest).findIdx (fun c => c == '【') = 0 := by
        simp [List.findIdx_cons]
      have hfind2 : ('【' :: rest).findIdx (fun c => c == '】') = i :=
        findIdx_of_first (fun c => c == '】') ('【' :: rest) i hi hno (by simpa using hat)
      refine ⟨?_, ?_, ?_, ?_⟩
      · show formatLine (String.mk ('【' :: rest)) = _
        rw [formatLine]
        simp only [hsp, Bool.false_eq_true, if_false, hin1, hin2, Bool.and_self, if_true,
          hfind1, hfind2]
        simp
      · cases i <;> simp
      · rw [take_succ_getLast ' ' ('【' :: rest) i hi, hat]
      · show String.mk _ ++ String.mk _ = _
        have hsplit := List.take_append_drop (i + 1) ('【' :: rest)
        calc String.mk (('【' :: rest).take (i + 1)) ++ String.mk (('【' :: rest).drop (i + 1))
            = String.mk (('【' :: rest).take (i + 1) ++ ('【' :: rest).drop (i + 1)) := rfl
          _ = String.mk ('【' :: rest) := by rw [hsplit]
  · intro line hns hnb
    rw [formatLine, if_neg (by simp [hns])]
    by_cases hin2 : pyIn '】' line.data = true
    · cases hl : line.data with
      | nil => rw [hl] at hns; simp at hns
      | cons c rest =>
        rw [hl] at hnb hin2
        have hcne : (c == '【') = false := by
          rcases hbe : c == '【' with _ | _
          · rfl
          · have hcb : c = '【' := by simpa using hbe
            subst hcb
            have := hnb (by simp)
            rw [this] at hin2
            simp at hin2
        simp only [hin2, Bool.and_true]
        by_cases hin1 : pyIn '【' (c :: rest) = true
        · simp only [hin1, if_true]
          rw [if_neg]
          simp only [List.findIdx_cons, hcne, cond_false, beq_iff_eq]
          omega
        · rw [Bool.not_eq_true] at hin1
          simp [hin1]
    · rw [Bool.not_eq_true] at hin2
      simp [hin2]

/-- Witness for C8 at the spec's three example lines: a line-initial
bracketed header is split into a bold run and a plain run, a mid-line
bracket yields one plain run, and an empty line yields a blank block. -/
theorem c8_minutes_formatting_witness :
    formatLine "【Agenda】Discuss budget" =
      Block.para [Run.bold "【Agenda】", Run.plain "Discuss budget"] ∧
    formatLine "Agenda 【note】" = Block.para [Run.plain "Agenda 【note】"] ∧
    formatLine "" = Block.blank := by
  refine ⟨?_, ?_, ?_⟩
  · have h := (c8_minutes_formatting.2.1 "【Agenda】Discuss budget" 7 rfl (by decide)
      (by decide) (by decide)).1
    rw [h]
    decide
  · exact c8_minutes_formatting.2.2 "Agenda 【note】" (by decide) (by decide)
  · exact c8_minutes_formatting.1 "" rfl

/-! ## RunLog (Transcriber.py lines 283-353)

The CSV store is modelled at the row/field level as `List (List String)`
(header row first); `csv.writer`/`csv.reader` round-trip field values, so
rows written by `update_log` read back as the same lists of strings.

`update_log` (lines 296-308) appends one row in the fixed column order,
timestamps and lengths rendered to strings.  `update_log_field` (lines
315-349) reads the header, locates the requested column by
case-insensitive comparison with first-match-wins (the `enumerate`/`break`
loop), rewrites the field of every row whose first column equals the key,
and writes the whole store back; a missing field, an empty store, an empty
data row (`row[0]` raising `IndexError`) or a matching row shorter than
the field index (`row[field_index] = value` raising) makes it return
`False` without rewriting — all of these are the `none` result. -/

def logHeader : List String :=
  ["ファイル名", "開始時刻", "終了時刻", "処理ステータス", "文字数", "要約文字数", "Slack送信"]

def lowerStr (s : String) : String := String.mk (s.data.map Char.toLower)

def update_log (csvRows : List (List String)) (name : String) (startTime endTime : Nat)
    (status : String) (textLength summaryLength : Nat) (slackStatus : String) :
    List (List String) :=
  csvRows ++ [[name, toString startTime, toString endTime, status,
    toString textLength, toString summaryLength, slackStatus]]

def findFieldIdx (field : String) : List String → Option Nat
  | [] => none
  | h :: rest =>
    if lowerStr h == lowerStr field then some 0
    else (findFieldIdx field rest).map (· + 1)

def applyRow (key value : String) (fieldIndex : Nat) (r : List String) : Option (List String) :=
  match r.head? with
  | none => none
  | some k0 =>
    if k0 == key then
      (if fieldIndex < r.length then some (r.set fieldIndex value) else none)
    else some r

def mapRows (f : List String → Option (List String)) :
    List (List String) → Option (List (List String))
  | [] => some []
  | r :: rs =>
    match f r with
    | none => none
    | some r2 =>
      match mapRows f rs with
      | none => none
      | some rest2 => some (r2 :: rest2)

def update_log_field (csvRows : List (List String)) (key field value : String) :
    Option (List (List String)) :=
  match csvRows with
  | [] => none
  | headerRow :: rows =>
    match findFieldIdx field headerRow with
    | none => none
    | some fieldIndex =>
      match mapRows (applyRow key value fieldIndex) rows with
      | none => none
      | some rows2 => some (headerRow :: rows2)

theorem findFieldIdx_lt (field : String) :
    ∀ (hs : List String) (i : Nat), findFieldIdx field hs = some i → i < hs.length := by
  intro hs
  induction hs with
  | nil => intro i h; simp [findFieldIdx] at h
  | cons h rest ih =>
    intro i hfi
    rw [findFieldIdx] at hfi
    by_cases hcmp : (lowerStr h == lowerStr field) = true
    · rw [if_pos hcmp] at hfi
      simp only [Option.some.injEq] at hfi
      simp [← hfi]
    · rw [if_neg hcmp] at hfi
      cases hrec : findFieldIdx field rest with
      | none => rw [hrec] at hfi; simp at hfi
      | some k =>
        rw [hrec] at hfi
        simp only [Option.map_some', Option.some.injEq] at hfi
        have := ih k hrec
        simp [← hfi]
        omega

theorem mapRows_length (f : List String → Option (List String)) :
    ∀ (rows out : List (List String)), mapRows f rows = some out → out.length = rows.length := by
  intro rows
  induction rows with
  | nil => intro out h; simp only [mapRows, Option.some.injEq] at h; simp [← h]
  | cons r rs ih =>
    intro out h
    rw [mapRows] at h
    cases hf : f r with
    | none => rw [hf] at h; simp at h
    | some r2 =>
      rw [hf] at h
      cases hm : mapRows f rs with
      | none => rw [hm] at h; simp at h
      | some rest2 =>
        rw [hm] at h
        simp only [Option.some.injEq] at h
        have := ih rest2 hm
        simp [← h, this]

theorem mapRows_applyRow (key value : String) (fieldIndex : Nat) :
    ∀ rows : List (List String), (∀ r ∈ rows, r ≠ []) →
      (∀ r ∈ rows, r.head? = some key → fieldIndex < r.length) →
      mapRows (applyRow key value fieldIndex) rows =
        some (rows.map (fun r => if r.head? == some key then r.set fieldIndex value else r)) := by
  intro rows
  induction rows with
  | nil => intro _ _; rfl
  | cons r rs ih =>
    intro hne hlen
    have hrne : r ≠ [] := hne r (by simp)
    obtain ⟨a, tail, rfl⟩ : ∃ a tail, r = a :: tail := by
      cases r with
      | nil => exact absurd rfl hrne
      | cons a tail => exact ⟨a, tail, rfl⟩
    rw [mapRows, applyRow]
    simp only [List.head?_cons]
    by_cases hak : (a == key) = true
    · have hkeyhd : (a :: tail).head? = some key := by
        simp only [List.head?_cons, Option.some.injEq]
        exact eq_of_beq hak
      have hflt : fieldIndex < (a :: tail).length := hlen _ (by simp) hkeyhd
      rw [if_pos hak, if_pos hflt,
        ih (fun q hq => hne q (by simp [hq])) (fun q hq => hlen q (by simp [hq]))]
      simp only [List.map_cons, mapRows]
      rw [List.head?_cons, show ((some a == some key) = (a == key)) from rfl, hak]
      simp
    · rw [if_neg hak,
        ih (fun q hq => hne q (by simp [hq])) (fun q hq => hlen q (by simp [hq]))]
      simp only [List.map_cons]
      rw [List.head?_cons, show ((some a == some key) = (a == key)) from rfl]
      rw [Bool.not_eq_true] at hak
      rw [hak]
      simp

theorem mapRows_no_match (key value : String) (fieldIndex : Nat) :
    ∀ rows : List (List String), (∀ r ∈ rows, r ≠ []) →
      (∀ r ∈ rows, r.head? ≠ some key) →
      mapRows (applyRow key value fieldIndex) rows = some rows := by
  intro rows
  induction rows with
  | nil => intro _ _; rfl
  | cons r rs ih =>
    intro hne hmiss
    have hrne : r ≠ [] := hne r (by simp)
    obtain ⟨a, tail, rfl⟩ : ∃ a tail, r = a :: tail := by
      cases r with
      | nil => exact absurd rfl hrne
      | cons a tail => exact ⟨a, tail, rfl⟩
    rw [mapRows, applyRow]
    simp only [List.head?_cons]
    have hak : (a == key) = false := by
      rcases hbe : a == key with _ | _
      · rfl
      · exact absurd (by simp [eq_of_beq hbe]) (hmiss (a :: tail) (by simp))
    rw [if_neg (by simp [hak]),
      ih (fun q hq => hne q (by simp [hq])) (fun q hq => hmiss q (by simp [hq]))]

theorem set_getElem_ne (value : String) :
    ∀ (r : List String) (j m : Nat), m ≠ j → (r.set j value)[m]? = r[m]? := by
  intro r
  induction r with
  | nil => intro j m _; simp
  | cons a as ih =>
    intro j m hm
    cases j with
    | zero =>
      cases m with
      | zero => exact absurd rfl hm
      | succ k => simp [List.set_cons_zero]
    | succ i =>
      cases m with
      | zero => simp [List.set_cons_succ]
      | succ k => simp [List.set_cons_succ, ih i k (by omega)]

theorem set_getElem_eq (value : String) :
    ∀ (r : List String) (j : Nat), j < r.length → (r.set j value)[j]? = some value := by
  intro r
  induction r with
  | nil => intro j hj; simp at hj
  | cons a as ih =>
    intro j hj
    cases j with
    | zero => simp [List.set_cons_zero]
    | succ i => simp [List.set_cons_succ, ih i (by simpa using hj)]

/-- Claim C5: after `update_log` appends a record keyed by `name`,
`update_log_field` with a field name that (case-insensitively) resolves to
column `j` of the header rewrites the store so that exactly the rows whose
key column equals `name` get column `j` replaced by the new value: the
header row is kept as-is at the front, a row whose key differs is returned
unchanged, and in an updated row every column other than `j` is unchanged
while column `j` holds the new value. -/
theorem c5_update_field_frame (records : List (List String))
    (name status slackStatus f value : String)
    (startTime endTime textLength summaryLength : Nat) (j : Nat)
    (hne : ∀ r ∈ records, r ≠ [])
    (hlen : ∀ r ∈ records, r.head? = some name → j < r.length)
    (hfield : findFieldIdx f logHeader = some j) :
    (update_log_field
        (update_log (logHeader :: records) name startTime endTime status textLength
          summaryLength slackStatus)
        name f value =
      some (logHeader ::
        (records ++ [[name, toString startTime, toString endTime, status,
            toString textLength, toString summaryLength, slackStatus]]).map
          (fun r => if r.head? == some name then r.set j value else r))) ∧
    (∀ r : List String, r.head? ≠ some name →
      (if r.head? == some name then r.set j value else r) = r) ∧
    (∀ (r : List String) (m : Nat), m ≠ j → (r.set j value)[m]? = r[m]?) ∧
    (∀ r : List String, j < r.length → (r.set j value)[j]? = some value) := by
  have hj7 : j < 7 := by
    have := findFieldIdx_lt f logHeader j hfield
    simpa [logHeader] using this
  refine ⟨?_, ?_, ?_, ?_⟩
  · have happ : update_log (logHeader :: records) name startTime endTime status textLength
        summaryLength slackStatus =
        logHeader :: (records ++ [[name, toString startTime, toString endTime, status,
          toString textLength, toString summaryLength, slackStatus]]) := by
      simp [update_log]
    rw [happ]
    simp only [update_log_field, hfield]
    rw [mapRows_applyRow name value j _ ?_ ?_]
    · intro r hr
      rcases List.mem_append.mp hr with hr | hr
      · exact hne r hr
      · simp only [List.mem_singleton] at hr
        subst hr
        simp
    · intro r hr _
      rcases List.mem_append.mp hr with hr2 | hr2
      · exact hlen r hr2 (by assumption)
      · simp only [List.mem_singleton] at hr2
        subst hr2
        simpa using hj7
  · intro r hr
    rw [if_neg]
    rcases hbe : r.head? == some name with _ | _
    · simp
    · exact absurd (eq_of_beq hbe) hr
  · exact fun r m hm => set_getElem_ne value r j m hm
  · exact fun r hr => set_getElem_eq value r j hr

/-- Witness for C5: a store with one earlier record for `other.mp3`, an
appended record for `a.mp3`, and an update of the Slack column (matched
case-insensitively as `SLACK送信`) to `成功` — only that cell changes. -/
theorem c5_update_field_frame_witness :
    update_log_field
        (update_log (logHeader :: [["other.mp3", "1", "2", "完了", "10", "5", "未送信"]])
          "a.mp3" 3 4 "完了" 8 2 "未送信")
        "a.mp3" "SLACK送信" "成功" =
      some [logHeader, ["other.mp3", "1", "2", "完了", "10", "5", "未送信"],
        ["a.mp3", "3", "4", "完了", "8", "2", "成功"]] := by
  have h := (c5_update_field_frame [["other.mp3", "1", "2", "完了", "10", "5", "未送信"]]
    "a.mp3" "完了" "未送信" "SLACK送信" "成功" 3 4 8 2 6
    (by decide) (by decide) (by decide)).1
  rw [h]
  decide

/-- Claim C10: when the header resolves the requested field but no data
row's key column equals the given key, `update_log_field` is a silent
no-op that reports success: it returns the rewritten store with the header
and every record unchanged. -/
theorem c10_update_field_missing_key (headerRow : List String)
    (records : List (List String)) (key f value : String) (j : Nat)
    (hfield : findFieldIdx f headerRow = some j)
    (hne : ∀ r ∈ records, r ≠ [])
    (hmiss : ∀ r ∈ records, r.head? ≠ some key) :
    update_log_field (headerRow :: records) key f value = some (headerRow :: records) := by
  simp only [update_log_field, hfield]
  rw [mapRows_no_match key value j records hne hmiss]

/-- Witness for C10: updating `notification_status` for an absent key
leaves the single record store unchanged and still returns success. -/
theorem c10_update_field_missing_key_witness :
    update_log_field [["name", "notification_status"], ["x.mp3", "sent"]]
        "zzz.mp3" "Notification_Status" "failed" =
      some [["name", "notification_status"], ["x.mp3", "sent"]] :=
  c10_update_field_missing_key ["name", "notification_status"] [["x.mp3", "sent"]]
    "zzz.mp3" "Notification_Status" "failed" 1 (by decide) (by decide) (by decide)

/-! ## PipelineOrchestrator (Transcriber.py lines 101-281, 375-448)

`process_audio_file` is embedded with explicit state.  `FsState` is the
working directory plus run log: existing transient chunk files (by
segment index), the written transcript text files (name, content), the
written minutes documents (name, formatted blocks — the fixed title and
metadata paragraphs the source also writes are elided from the document
value), and the CSV rows of `transcription_log.csv`.

`Env` supplies the outcome of every external call the source makes for
one file, each an `Except` whose `error` is a raised Python exception:
audio decode (`AudioSegment.from_file`, giving `len(audio)` on success),
the per-segment `model.transcribe`, the transcript-file write, the two
OpenAI calls, `doc.save`, and the webhook transport (giving the HTTP
status on success).  `name` stands for the file's basename (the run-log
key; the `splitext` stem used for output names is elided, outputs are
keyed `name ++ suffix`).  `startTime`/`endTime` are the two
`datetime.now()` readings as abstract clock values; `datetime.now()`
itself is modelled as never raising, so the source's
`'start_time' in locals()` guard in the error handler always finds the
entry time.

The outer `try/except Exception` (lines 102, 262-281) catches every
failure, appends the failed record via `update_log`, and returns
`(False, 0)`; `main`'s loop (lines 418-427) keeps iterating either way.
Note the notification step calls `update_log_field` with field name
`"slack_status"`, which matches no column of `logHeader` (the header says
`"Slack送信"`), so the lookup fails, `update_log_field` returns `False`
without rewriting, and the code proceeds regardless — the model keeps the
store unchanged in the `none` case exactly as the source does. -/

structure Env where
  decode : Except String Nat
  transcribe : Nat → Except String String
  txtWrite : Except String Unit
  gpt4o : Except String String
  gpt35 : Except String String
  docxSave : Except String Unit
  slackWebhook : Option String
  slackTransport : Except String Nat
  startTime : Nat
  endTime : Nat

structure FsState where
  transient : List Nat
  txtFiles : List (String × String)
  docxFiles : List (String × List Block)
  csv : List (List String)
deriving DecidableEq

def slackPlaceholder : String := "https://hooks.slack.com/services/XXX/YYY/ZZZ"

def defaultInterval : Nat := 5 * 60 * 1000

def failLog (cfg : Env) (name e : String) (st : FsState) : FsState :=
  { st with csv := update_log st.csv name cfg.startTime cfg.endTime ("エラー: " ++ e) 0 0 "未送信" }

def notifyStep (cfg : Env) (name : String) (st : FsState) : FsState :=
  match cfg.slackWebhook with
  | none => st
  | some url =>
    if url != slackPlaceholder then
      match update_log_field st.csv name "slack_status"
          (if send_to_slack cfg.slackTransport then "成功" else "失敗") with
      | some rows2 => { st with csv := rows2 }
      | none => st
    else st

def process_audio_file (cfg : Env) (name : String) (interval : Nat) (st : FsState) :
    Bool × FsState :=
  match cfg.decode with
  | .error e => (false, failLog cfg name e st)
  | .ok dur =>
    let res := runSegAux cfg.transcribe (segments dur interval).length 0 st.transient ""
    let st1 := { st with transient := res.1 }
    match res.2 with
    | .error e => (false, failLog cfg name e st1)
    | .ok allText =>
      match cfg.txtWrite with
      | .error e => (false, failLog cfg name e st1)
      | .ok _ =>
        let st2 := { st1 with txtFiles := st1.txtFiles ++ [(name ++ "_文字起こし.txt", allText)] }
        let outcome := summarize cfg.gpt4o cfg.gpt35
        match cfg.docxSave with
        | .error e => (false, failLog cfg name e st2)
        | .ok _ =>
          let st3 := { st2 with
            docxFiles := st2.docxFiles ++ [(name ++ "_議事録.docx", buildMinutes outcome.1)] }
          let st4 := { st3 with
            csv := update_log st3.csv name cfg.startTime cfg.endTime "完了"
              allText.length outcome.1.length "未送信" }
          (true, notifyStep cfg name st4)

def runBatch : List (Env × String) → Nat → FsState → Nat × FsState
  | [], successCount, st => (successCount, st)
  | (cfg, name) :: rest, successCount, st =>
    let r := process_audio_file cfg name defaultInterval st
    runBatch rest (if r.1 then successCount + 1 else successCount) r.2

theorem update_log_field_length (csvRows : List (List String)) (key field value : String)
    (out : List (List String)) (h : update_log_field csvRows key field value = some out) :
    out.length = csvRows.length := by
  cases csvRows with
  | nil => simp [update_log_field] at h
  | cons headerRow rows =>
    rw [update_log_field] at h
    cases hf : findFieldIdx field headerRow with
    | none => simp only [hf] at h; exact absurd h (by simp)
    | some fieldIndex =>
      simp only [hf] at h
      cases hm : mapRows (applyRow key value fieldIndex) rows with
      | none => simp only [hm] at h; exact absurd h (by simp)
      | some rows2 =>
        simp only [hm, Option.some.injEq] at h
        have := mapRows_length (applyRow key value fieldIndex) rows rows2 hm
        simp [← h, this]

theorem notifyStep_csv_length (cfg : Env) (name : String) (st : FsState) :
    (notifyStep cfg name st).csv.length = st.csv.length := by
  rw [notifyStep]
  split
  · rfl
  · split
    · split
      · rename_i rows2 hu
        simpa using update_log_field_length st.csv name "slack_status" _ rows2 hu
      · rfl
    · rfl

theorem runSegAux_err_snd (transcribe : Nat → Except String String) :
    ∀ (j n idx : Nat) (files : List Nat) (acc e : String),
      (∀ i, i < j → (transcribe (idx + i)).isOk = true) →
      transcribe (idx + j) = Except.error e → j < n →
      (runSegAux transcribe n idx files acc).2 = Except.error e := by
  intro j
  induction j with
  | zero =>
    intro n idx files acc e _ herr hn
    obtain ⟨m, rfl⟩ : ∃ m, n = m + 1 := ⟨n - 1, by omega⟩
    simp only [Nat.add_zero] at herr
    simp [runSegAux, herr]
  | succ k ih =>
    intro n idx files acc e hok herr hn
    obtain ⟨m, rfl⟩ : ∃ m, n = m + 1 := ⟨n - 1, by omega⟩
    have h0 := hok 0 (by omega)
    simp only [Nat.add_zero] at h0
    rcases htr : transcribe idx with e' | text
    · rw [htr] at h0; simp [Except.isOk, Except.toBool] at h0
    · have step : runSegAux transcribe (m + 1) idx files acc =
          runSegAux transcribe m (idx + 1)
            ((if files.contains idx then files else files ++ [idx]).erase idx)
            (acc ++ text ++ paragraphSep) := by
        simp [runSegAux, htr]
      rw [step]
      exact ih m (idx + 1) _ _ e
        (fun i hi => by
          have := hok (i + 1) (by omega)
          rwa [show idx + (i + 1) = idx + 1 + i by omega] at this)
        (by rwa [show idx + 1 + k = idx + (k + 1) by omega]) (by omega)

theorem process_fail_appends_error_row (cfg : Env) (name : String) (interval : Nat)
    (st : FsState) (hfail : (process_audio_file cfg name interval st).1 = false) :
    ∃ e, (process_audio_file cfg name interval st).2.csv =
      update_log st.csv name cfg.startTime cfg.endTime ("エラー: " ++ e) 0 0 "未送信" := by
  rcases hdec : cfg.decode with e | dur
  · exact ⟨e, by simp only [process_audio_file, hdec, failLog]⟩
  · rcases hres : (runSegAux cfg.transcribe (segments dur interval).length 0 st.transient "").2
      with e | allText
    · exact ⟨e, by simp only [process_audio_file, hdec, hres, failLog]⟩
    · rcases htxt : cfg.txtWrite with e | u
      · exact ⟨e, by simp only [process_audio_file, hdec, hres, htxt, failLog]⟩
      · rcases hdocx : cfg.docxSave with e | u2
        · exact ⟨e, by simp only [process_audio_file, hdec, hres, htxt, hdocx, failLog]⟩
        · exfalso
          have htrue : (process_audio_file cfg name interval st).1 = true := by
            simp only [process_audio_file, hdec, hres, htxt, hdocx]
          rw [htrue] at hfail
          simp at hfail

theorem process_csv_length (cfg : Env) (name : String) (interval : Nat) (st : FsState) :
    ((process_audio_file cfg name interval st).2.csv).length = st.csv.length + 1 := by
  rcases hdec : cfg.decode with e | dur
  · simp [process_audio_file, hdec, failLog, update_log]
  · rcases hres : (runSegAux cfg.transcribe (segments dur interval).length 0 st.transient "").2
      with e | allText
    · simp [process_audio_file, hdec, hres, failLog, update_log]
    · rcases htxt : cfg.txtWrite with e | u
      · simp [process_audio_file, hdec, hres, htxt, failLog, update_log]
      · rcases hdocx : cfg.docxSave with e | u2
        · simp [process_audio_file, hdec, hres, htxt, hdocx, failLog, update_log]
        · simp only [process_audio_file, hdec, hres, htxt, hdocx]
          rw [notifyStep_csv_length]
          simp [update_log]

theorem runBatch_csv_length :
    ∀ (inputs : List (Env × String)) (successCount : Nat) (st : FsState),
      ((runBatch inputs successCount st).2.csv).length = st.csv.length + inputs.length := by
  intro inputs
  induction inputs with
  | nil => intro successCount st; simp [runBatch]
  | cons p rest ih =>
    intro successCount st
    obtain ⟨cfg, name⟩ := p
    rw [runBatch]
    rw [ih _ (process_audio_file cfg name defaultInterval st).2]
    rw [process_csv_length]
    simp
    omega

/-- Claim C7: every per-file failure is caught at the per-file boundary:
whenever `process_audio_file` reports failure, the only run-log change is
one appended Failed record whose status carries the error text and whose
start-time column holds the time captured at entry (the best-effort start
time — `datetime.now()` is modelled as never raising, so the
`'start_time' in locals()` fallback always finds it); every file,
successful or failed, appends exactly one record; and the batch loop
always processes its whole input list, growing the log by exactly one row
per file — no per-file failure terminates it. -/
theorem c7_per_file_failure_boundary :
    (∀ (cfg : Env) (name : String) (interval : Nat) (st : FsState),
      (process_audio_file cfg name interval st).1 = false →
      ∃ e, (process_audio_file cfg name interval st).2.csv =
        update_log st.csv name cfg.startTime cfg.endTime ("エラー: " ++ e) 0 0 "未送信") ∧
    (∀ (cfg : Env) (name : String) (interval : Nat) (st : FsState),
      ((process_audio_file cfg name interval st).2.csv).length = st.csv.length + 1) ∧
    (∀ (inputs : List (Env × String)) (successCount : Nat) (st : FsState),
      ((runBatch inputs successCount st).2.csv).length = st.csv.length + inputs.length) :=
  ⟨process_fail_appends_error_row, process_csv_length, runBatch_csv_length⟩

/-- A file whose first (and only) segment's transcription raises, over an
otherwise healthy environment. -/
def c3Env : Env :=
  ⟨Except.ok 2, fun _ => Except.error "boom", Except.ok (), Except.ok "s", Except.ok "s",
    Except.ok (), none, Except.ok 200, 1, 2⟩

/-- The freshly initialised state: no files, run log holding the header. -/
def st0 : FsState := ⟨[], [], [], [logHeader]⟩

/-- Witness for C7: the failing file appends exactly its error record, and
a two-file batch containing it still grows the log by two rows. -/
theorem c7_per_file_failure_boundary_witness :
    (∃ e, (process_audio_file c3Env "a.mp3" defaultInterval st0).2.csv =
      update_log st0.csv "a.mp3" c3Env.startTime c3Env.endTime ("エラー: " ++ e) 0 0 "未送信") ∧
    ((runBatch [(c3Env, "a.mp3"), (c3Env, "b.mp3")] 0 st0).2.csv).length =
      st0.csv.length + 2 := by
  constructor
  · exact c7_per_file_failure_boundary.1 c3Env "a.mp3" defaultInterval st0 (by decide)
  · exact c7_per_file_failure_boundary.2.2 [(c3Env, "a.mp3"), (c3Env, "b.mp3")] 0 st0

/-- Claim C3: when the model's transcription raises on a segment (the
earlier segments having succeeded), the file's run reports failure, no
transcript text file and no minutes document is written, the appended
log row's status column carries the error description, and the batch
recursion continues with the remaining input files. -/
theorem c3_transcription_failure_isolated (cfg : Env) (name : String) (st : FsState)
    (dur j : Nat) (e : String)
    (hdec : cfg.decode = Except.ok dur)
    (hj : j < (segments dur defaultInterval).length)
    (hok : ∀ i, i < j → (cfg.transcribe i).isOk = true)
    (herr : cfg.transcribe j = Except.error e) :
    (process_audio_file cfg name defaultInterval st).1 = false ∧
    (process_audio_file cfg name defaultInterval st).2.txtFiles = st.txtFiles ∧
    (process_audio_file cfg name defaultInterval st).2.docxFiles = st.docxFiles ∧
    (process_audio_file cfg name defaultInterval st).2.csv =
      st.csv ++ [[name, toString cfg.startTime, toString cfg.endTime,
        "エラー: " ++ e, "0", "0", "未送信"]] ∧
    (∀ (rest : List (Env × String)) (successCount : Nat),
      runBatch ((cfg, name) :: rest) successCount st =
        runBatch rest successCount (process_audio_file cfg name defaultInterval st).2) := by
  have hsnd : (runSegAux cfg.transcribe (segments dur defaultInterval).length 0
      st.transient "").2 = Except.error e :=
    runSegAux_err_snd cfg.transcribe j (segments dur defaultInterval).length 0 st.transient "" e
      (fun i hi => by simpa using hok i hi) (by simpa using herr) hj
  have hred : process_audio_file cfg name defaultInterval st =
      (false, failLog cfg name e
        { st with transient := (runSegAux cfg.transcribe
            (segments dur defaultInterval).length 0 st.transient "").1 }) := by
    simp only [process_audio_file, hdec, hsnd]
  refine ⟨by rw [hred], ?_, ?_, ?_, ?_⟩
  · rw [hred]
    simp [failLog]
  · rw [hred]
    simp [failLog]
  · rw [hred]
    simp only [failLog, update_log]
    rfl
  · intro rest successCount
    rw [runBatch, hred]
    simp

/-- Witness for C3 at a concrete failing file: the 2 ms track gives one
segment, its transcription raises `boom`, nothing is written, and the
error row is appended after the header. -/
theorem c3_transcription_failure_isolated_witness :
    (process_audio_file c3Env "a.mp3" defaultInterval st0).1 = false ∧
    (process_audio_file c3Env "a.mp3" defaultInterval st0).2.txtFiles = [] ∧
    (process_audio_file c3Env "a.mp3" defaultInterval st0).2.docxFiles = [] ∧
    (process_audio_file c3Env "a.mp3" defaultInterval st0).2.csv =
      [logHeader, ["a.mp3", "1", "2", "エラー: boom", "0", "0", "未送信"]] := by
  have h := c3_transcription_failure_isolated c3Env "a.mp3" st0 2 0 "boom" rfl (by decide)
    (by decide) rfl
  refine ⟨h.1, ?_, ?_, ?_⟩
  · rw [h.2.1]
    rfl
  · rw [h.2.2.1]
    rfl
  · rw [h.2.2.2.1]
    decide


end TranscriptWizard
